import Mathlib

/-!
Verification of the trace-commitment / spot-check proof core of the
`quantum-safe` repository, as a shallow embedding in Lean.

The hash function (`sha3_512`, possibly truncated) is modelled as an
abstract parameter `h : String → String`: every property proved here is
independent of the concrete digest function, exactly as in the source,
where `commit_trace` takes `hash_func` as a parameter.  Python integers
are modelled as `Int`; Python lists as `List`; a Python function that can
raise `IndexError` is modelled with `Option`.
-/

namespace QuantumSafe

/-- One Merkle fold step over an even-length level: the Python list
comprehension `[hash_func(L[i]+L[i+1]) for i in range(0,len(L),2)]`.
The `[a]` case is unreachable in the source (the level is padded to even
length first); it is given the identity behaviour. -/
def foldPairs (h : String → String) : List String → List String
  | [] => []
  | [a] => [a]
  | a :: b :: rest => h (a ++ b) :: foldPairs h rest

/-- The odd-level duplication padding: `if len(L) % 2 != 0: L.append(L[-1])`. -/
def padLevel (L : List String) : List String :=
  if L.length % 2 ≠ 0 then L ++ [L.getLastD ""] else L

theorem foldPairs_length (h : String → String) (M : List String) :
    (foldPairs h M).length = (M.length + 1) / 2 := by
  induction M using foldPairs.induct h with
  | case1 => simp [foldPairs]
  | case2 a => simp [foldPairs]
  | case3 a b rest ih => simp [foldPairs, ih]; omega

theorem padLevel_length (L : List String) :
    (padLevel L).length = L.length ∨
      (L.length % 2 = 1 ∧ (padLevel L).length = L.length + 1) := by
  unfold padLevel
  split
  · rename_i hodd
    exact Or.inr ⟨by omega, by simp⟩
  · exact Or.inl rfl

/-- The while-loop shared verbatim by `vuln_stark.commit_trace`,
`mini_stark.commit_trace`, `pqzk_poc.mini_stark_qsafe.merkle_root_from_leaves`
and `attack_vuln_stark.build_merkle_from_leaves`:
`while len(L) > 1: pad to even; fold pairs`. -/
def buildLoop (h : String → String) (L : List String) : List String :=
  if 1 < L.length then
    buildLoop h (foldPairs h (padLevel L))
  else
    L
termination_by L.length
decreasing_by
  rcases padLevel_length L with hp | ⟨hodd, hp⟩ <;>
    rw [foldPairs_length, hp] <;> omega

/-- Hashing one raw trace value: `hash_func(v)` where Python applies
`str(v)` inside the hash; `str` on a Python int is `toString` on `Int`. -/
def leafHash (h : String → String) (v : Int) : String := h (toString v)

/-- `vuln_stark.commit_trace` (the same shape as `mini_stark.commit_trace`
except that source returns only the root): maps the trace through the leaf
hasher, runs the fold loop on the variable `leaves`, and returns
`leaves[0], leaves` — the variable `leaves` has been rebound to the final
level when it is returned.  `leaves[0]` on an empty list raises, hence
`Option`. -/
def commit_trace_vuln (h : String → String) (trace : List Int) :
    Option (String × List String) :=
  let final := buildLoop h (trace.map (leafHash h))
  final.head?.map (fun r => (r, final))

/-- `pqzk_poc.mini_stark_qsafe.merkle_root_from_leaves`: copies the leaf
list and runs the fold loop, returning `L[0]` (raises on empty input,
hence `Option`). -/
def merkle_root_from_leaves (h : String → String) (leaves : List String) :
    Option String :=
  (buildLoop h leaves).head?

/-- `pqzk_poc.mini_stark_qsafe.commit_trace`: hashes the trace into
`leaves`, computes the root from a copy, and returns `root, leaves`. -/
def commit_trace_qsafe (h : String → String) (trace : List Int) :
    Option (String × List String) :=
  let leaves := trace.map (leafHash h)
  (merkle_root_from_leaves h leaves).map (fun r => (r, leaves))

/-- `attack_vuln_stark.build_merkle_from_leaves`: identical loop to the
commitment builder, run on a caller-supplied leaf list. -/
def build_merkle_from_leaves (h : String → String) (leaves : List String) :
    Option String :=
  (buildLoop h leaves).head?

/-- `attack_vuln_stark.recompute_root_with_new_leaf`: recompute the leaf
digests from the trace, overwrite position `leaf_index` with the digest of
`new_value`, and rebuild the root.  `List.set` models the in-range Python
assignment `leaves[leaf_index] = ...`. -/
def recompute_root_with_new_leaf (h : String → String) (trace : List Int)
    (leaf_index : Nat) (new_value : Int) : Option String × List String :=
  let leaves := (trace.map (leafHash h)).set leaf_index (leafHash h new_value)
  (build_merkle_from_leaves h leaves, leaves)

/-- One iteration of the loop body of `gen_fib_trace`:
`trace.append(trace[-1] + trace[-2])`.  Python's negative indices
`trace[-1]`, `trace[-2]` address positions `len-1`, `len-2`. -/
def fibStep (t : List Int) : List Int :=
  t ++ [t.getD (t.length - 1) 0 + t.getD (t.length - 2) 0]

/-- The `for i in range(2, n)` loop of `gen_fib_trace`, as a count-down
recursion over the number of remaining iterations. -/
def genFibLoop : Nat → List Int → List Int
  | 0, t => t
  | k + 1, t => genFibLoop k (fibStep t)

/-- `gen_fib_trace` (identical in `vuln_stark.py`, `mini_stark.py` and
`pqzk_poc/mini_stark_qsafe.py`): starts from `[1,1]` and appends the sum
of the last two elements `n - 2` times (`range(2, n)` is empty for
`n < 2`, where Nat subtraction also gives zero iterations). -/
def gen_fib_trace (n : Nat) : List Int :=
  genFibLoop (n - 2) [1, 1]

/-- One proof entry of `prove` / `prove_trace`, for a nonnegative index
as always supplied by the sampler: reads `trace[i]`, `trace[i+1]`,
`trace[i+2]` (each read raises `IndexError` when out of range, hence
`Option`) and emits `(i, trace[i] + trace[i+1], trace[i+2])`.  A general
Python `int` index, whose negative values alias from the end of the list,
is modelled by `proofEntryInt`. -/
def proofEntry (tr : List Int) (i : Nat) : Option (Nat × Int × Int) :=
  tr[i]?.bind fun a =>
  tr[i + 1]?.bind fun b =>
  tr[i + 2]?.map fun c => (i, a + b, c)

/-- `mini_stark.prove` (identical to `pqzk_poc.mini_stark_qsafe.prove_trace`)
over nonnegative challenge indices; the first out-of-range access aborts
the whole call.  See `proveInt` for arbitrary (possibly negative) `int`
indices. -/
def prove (trace : List Int) (indices : List Nat) :
    Option (List (Nat × Int × Int)) :=
  indices.mapM (proofEntry trace)

/-- Python list indexing `tr[i]` with an arbitrary `int` index: a
negative index is first shifted by the list length (aliasing from the
end); the access raises `IndexError` (`none`) iff the shifted index is
still out of range. -/
def pyGet (tr : List Int) (i : Int) : Option Int :=
  let j := if i < 0 then i + tr.length else i
  if 0 ≤ j then tr[j.toNat]? else none

/-- One proof entry of `prove` with its index a Python `int`, using
`pyGet` for the three reads, so a negative challenge index aliases from
the end of the trace instead of failing. -/
def proofEntryInt (tr : List Int) (i : Int) : Option (Int × Int × Int) :=
  (pyGet tr i).bind fun a =>
  (pyGet tr (i + 1)).bind fun b =>
  (pyGet tr (i + 2)).map fun c => (i, a + b, c)

/-- `mini_stark.prove` over arbitrary Python `int` challenge indices (the
fully faithful model of the source, where a caller may pass any ints). -/
def proveInt (tr : List Int) (indices : List Int) :
    Option (List (Int × Int × Int)) :=
  indices.mapM (proofEntryInt tr)

/-- `mini_stark.verify`: scans the triples and returns `False` on the
first `lhs != rhs`, `True` if none mismatches. -/
def verify : List (Nat × Int × Int) → Bool
  | [] => true
  | (_, lhs, rhs) :: rest => if lhs ≠ rhs then false else verify rest

/-- `pqzk_poc.mini_stark_qsafe.verify_proof`: same scan as
`mini_stark.verify`. -/
def verify_proof : List (Nat × Int × Int) → Bool
  | [] => true
  | (_, lhs, rhs) :: rest => if lhs ≠ rhs then false else verify_proof rest

/-- The contract of CPython's `random.sample(population, k)`: it raises
`ValueError` when `k` is negative or exceeds the population size, and
otherwise returns `k` distinct elements of the population.  The
randomness is modelled by letting the caller supply the shuffled
population `pop`; the draw is its first `k` elements. -/
def pyRandomSample (pop : List Nat) (k : Int) : Option (List Nat) :=
  if 0 ≤ k ∧ k.toNat ≤ pop.length then some (pop.take k.toNat) else none

/-- `random_challenges(n, k) = random.sample(range(n-2), k)` (identical in
`mini_stark.py` and `pqzk_poc/mini_stark_qsafe.py`).  The RNG draw is
modelled by a permutation `perm` of `range(n-2)` supplied as an argument;
theorems about it carry the hypothesis `perm.Perm (List.range (n - 2))`. -/
def random_challenges (perm : List Nat) (k : Int) : Option (List Nat) :=
  pyRandomSample perm k

/-- The signature material passed to `chainB_verify`: an RSA toy
signature (an integer) on the legacy path, or the pair
`sig_impl, pk = signer_blob` destructured on the pq path.  The oqs
objects are opaque to the bridge, hence type parameters.  The
`signer_mode` string is subsumed by the constructor: every call site
pairs `'legacy'` with a bare signature and `'pq'` with a pair. -/
inductive SignerBlob (α β : Type) where
  | legacy (sig : Int)
  | pq (sig_impl : α) (pk : β)

/-- `pqzk_poc.bridge_sim.chainB_verify`: checks the STARK proof first and
returns `False` on failure; on the legacy path it delegates to
`legacy_verify_commit` (toy RSA, out of the core's scope, hence an opaque
function parameter); on the pq path it `return True` unconditionally
(the source comment says: for flow simplicity; call pq_verify
externally). -/
def chainB_verify {α β : Type} (legacy_verify_commit : String → Int → Bool)
    (root_str : String) (proof : List (Nat × Int × Int))
    (signer_blob : SignerBlob α β) : Bool :=
  if verify_proof proof = false then false
  else
    match signer_blob with
    | .legacy sig => legacy_verify_commit root_str sig
    | .pq _ _ => true

/-! ### Helper lemmas about the Merkle fold -/

theorem padLevel_of_odd {L : List String} (hodd : L.length % 2 = 1) :
    padLevel L = L ++ [L.getLastD ""] := by
  unfold padLevel
  rw [if_pos (by omega)]

theorem padLevel_of_even {L : List String} (heven : L.length % 2 = 0) :
    padLevel L = L := by
  unfold padLevel
  rw [if_neg (by omega)]

theorem buildLoop_length_le_one (h : String → String) (L : List String) :
    (buildLoop h L).length ≤ 1 := by
  induction L using buildLoop.induct h with
  | case1 L hL ih => rw [buildLoop, if_pos hL]; exact ih
  | case2 L hL => rw [buildLoop, if_neg hL]; omega

theorem buildLoop_ne_nil (h : String → String) (L : List String) (hL : L ≠ []) :
    buildLoop h L ≠ [] := by
  induction L using buildLoop.induct h with
  | case1 L h1 ih =>
    rw [buildLoop, if_pos h1]
    apply ih
    have h2 := foldPairs_length h (padLevel L)
    rcases padLevel_length L with hp | ⟨hodd, hp⟩ <;>
      · intro hnil
        rw [hnil] at h2
        simp at h2
        omega
  | case2 L h1 => rw [buildLoop, if_neg h1]; exact hL

/-- One fold step on an odd level of at least 3 nodes: the in-place
duplication padding produces exactly the fold of the explicitly
extended level. -/
theorem foldPairs_padLevel_of_odd (h : String → String) {L : List String}
    (hodd : L.length % 2 = 1) :
    foldPairs h (padLevel L) = foldPairs h (L ++ [L.getLastD ""]) := by
  rw [padLevel_of_odd hodd]

/-- Running the loop on an odd level of at least 3 nodes gives the same
result as running it on the level explicitly extended by a copy of its
last node. -/
theorem buildLoop_dup (h : String → String) {L : List String}
    (hodd : L.length % 2 = 1) (h3 : 3 ≤ L.length) :
    buildLoop h L = buildLoop h (L ++ [L.getLastD ""]) := by
  conv_lhs => rw [buildLoop]
  conv_rhs => rw [buildLoop]
  rw [if_pos (by omega), if_pos (by simp; omega)]
  rw [padLevel_of_odd hodd, padLevel_of_even (by simp; omega)]

theorem list_eq_singleton_of_head?_length {α : Type} {l : List α} {r : α}
    (hh : l.head? = some r) (hl : l.length ≤ 1) : l = [r] := by
  cases l with
  | nil => simp at hh
  | cons a t =>
    simp at hh hl
    subst hh
    simp [hl]

theorem list_set_getD_self {α : Type} {l : List α} {i : Nat} {d : α}
    (hi : i < l.length) : l.set i (l.getD i d) = l := by
  apply List.ext_getElem
  · simp
  · intro n h1 h2
    rw [List.getElem_set]
    split
    · rename_i hin
      subst hin
      rw [List.getD_eq_getElem l d hi]
    · rfl

/-! ### Helper lemmas about the prover and verifier -/

theorem verify_eq_all (p : List (Nat × Int × Int)) :
    verify p = p.all fun t => t.2.1 == t.2.2 := by
  induction p with
  | nil => rfl
  | cons a rest ih =>
    obtain ⟨i, l, r⟩ := a
    by_cases he : l = r <;> simp [verify, he, ih]

theorem verify_eq_true_iff (p : List (Nat × Int × Int)) :
    verify p = true ↔ ∀ t ∈ p, t.2.1 = t.2.2 := by
  rw [verify_eq_all, List.all_eq_true]
  simp

theorem verify_proof_eq_verify (p : List (Nat × Int × Int)) :
    verify_proof p = verify p := by
  induction p with
  | nil => rfl
  | cons a rest ih =>
    obtain ⟨i, l, r⟩ := a
    simp [verify, verify_proof, ih]

theorem mapM_option_isSome {α β : Type} (f : α → Option β) (xs : List α) :
    (xs.mapM f).isSome = true ↔ ∀ x ∈ xs, (f x).isSome = true := by
  induction xs with
  | nil => rw [List.mapM_nil]; simp
  | cons a l ih =>
    rw [List.mapM_cons]
    cases hf : f a with
    | none =>
      simp
      intro hall
      rw [hf] at hall
      simp at hall
    | some y =>
      cases hm : l.mapM f with
      | none =>
        rw [hm] at ih
        simp at ih ⊢
        intro _
        exact ih
      | some ys =>
        rw [hm] at ih
        simp at ih ⊢
        exact ⟨by rw [hf]; rfl, ih⟩

theorem mapM_option_eq_some_map {α β : Type} (f : α → Option β) (g : α → β)
    (xs : List α) (hg : ∀ x ∈ xs, f x = some (g x)) :
    xs.mapM f = some (xs.map g) := by
  induction xs with
  | nil => rw [List.mapM_nil]; rfl
  | cons a l ih =>
    rw [List.mapM_cons, hg a (by simp), ih (fun x hx => hg x (by simp [hx]))]
    rfl

theorem mapM_option_eq_none_iff {α β : Type} (f : α → Option β) (xs : List α) :
    xs.mapM f = none ↔ ∃ x ∈ xs, f x = none := by
  constructor
  · intro hn
    by_contra hex
    push_neg at hex
    have hall : ∀ x ∈ xs, (f x).isSome = true := by
      intro x hx
      cases hfx : f x with
      | none => exact absurd hfx (hex x hx)
      | some y => rfl
    have := (mapM_option_isSome f xs).mpr hall
    rw [hn] at this
    simp at this
  · rintro ⟨x, hx, hfx⟩
    cases hm : xs.mapM f with
    | none => rfl
    | some ys =>
      have hall := (mapM_option_isSome f xs).mp (by rw [hm]; rfl)
      have := hall x hx
      rw [hfx] at this
      simp at this

theorem proofEntry_eq_some {tr : List Int} {i : Nat} (hi : i + 2 < tr.length) :
    proofEntry tr i =
      some (i, tr.getD i 0 + tr.getD (i + 1) 0, tr.getD (i + 2) 0) := by
  have h0 : i < tr.length := by omega
  have h1 : i + 1 < tr.length := by omega
  rw [proofEntry, List.getElem?_eq_getElem h0, List.getElem?_eq_getElem h1,
    List.getElem?_eq_getElem hi, List.getD_eq_getElem tr 0 h0,
    List.getD_eq_getElem tr 0 h1, List.getD_eq_getElem tr 0 hi]
  rfl

theorem proofEntry_eq_none {tr : List Int} {i : Nat} (hi : tr.length ≤ i + 2) :
    proofEntry tr i = none := by
  rw [proofEntry, List.getElem?_eq_none hi]
  cases h0 : tr[i]? <;> cases h1 : tr[i + 1]? <;> simp

/-! ### Helper lemmas about the Fibonacci trace -/

/-- The invariant maintained by the `gen_fib_trace` loop: the list has at
least two elements, starts with `1, 1`, and satisfies the recurrence at
every interior position. -/
def FibChain (t : List Int) : Prop :=
  2 ≤ t.length ∧ t.getD 0 0 = 1 ∧ t.getD 1 0 = 1 ∧
    ∀ i, i + 2 < t.length → t.getD i 0 + t.getD (i + 1) 0 = t.getD (i + 2) 0

theorem fibStep_length (t : List Int) : (fibStep t).length = t.length + 1 := by
  simp [fibStep]

theorem fibStep_fibChain {t : List Int} (h : FibChain t) : FibChain (fibStep t) := by
  obtain ⟨hlen, h0, h1, hrec⟩ := h
  refine ⟨by rw [fibStep_length]; omega, ?_, ?_, ?_⟩
  · rw [fibStep, List.getD_append _ _ _ _ (by omega)]
    exact h0
  · rw [fibStep, List.getD_append _ _ _ _ (by omega)]
    exact h1
  · intro i hi
    rw [fibStep_length] at hi
    by_cases hlt : i + 2 < t.length
    · rw [fibStep, List.getD_append _ _ _ _ (by omega),
        List.getD_append _ _ _ _ (by omega), List.getD_append _ _ _ _ hlt]
      exact hrec i hlt
    · rw [fibStep, List.getD_append _ _ _ _ (by omega),
        List.getD_append _ _ _ _ (by omega),
        List.getD_append_right _ _ _ _ (by omega)]
      have hz : i + 2 - t.length = 0 := by omega
      rw [hz]
      have e1 : t.length - 1 = i + 1 := by omega
      have e2 : t.length - 2 = i := by omega
      rw [e1, e2]
      simp
      omega

theorem genFibLoop_length (k : Nat) (t : List Int) :
    (genFibLoop k t).length = t.length + k := by
  induction k generalizing t with
  | zero => simp [genFibLoop]
  | succ k ih => rw [genFibLoop, ih, fibStep_length]; omega

theorem genFibLoop_fibChain (k : Nat) {t : List Int} (h : FibChain t) :
    FibChain (genFibLoop k t) := by
  induction k generalizing t with
  | zero => exact h
  | succ k ih => exact ih (fibStep_fibChain h)

theorem fibChain_init : FibChain [1, 1] := by
  refine ⟨by simp, by simp, by simp, ?_⟩
  intro i hi
  simp at hi

theorem gen_fib_trace_fibChain (n : Nat) : FibChain (gen_fib_trace n) :=
  genFibLoop_fibChain _ fibChain_init

theorem gen_fib_trace_length (n : Nat) :
    (gen_fib_trace n).length = 2 + (n - 2) := by
  rw [gen_fib_trace, genFibLoop_length]
  rfl

/-! ### Claim theorems -/

/-- C8 (counterexample): `gen_fib_trace` does not fail for `n < 2`; at the
concrete inputs `n = 0` and `n = 1` it returns the full two-element seed
`[1, 1]` instead of failing with `InvalidLength` (and its length is not
the requested one). -/
theorem gen_fib_trace_small_counterexample :
    gen_fib_trace 0 = [1, 1] ∧ gen_fib_trace 1 = [1, 1] ∧
      (gen_fib_trace 0).length ≠ 0 := by
  refine ⟨rfl, rfl, by decide⟩

/-- C8 (amended): for every requested length `n < 2`, `gen_fib_trace`
returns the seed `[1, 1]` (length 2) without failing; for every `n ≥ 2` it
returns a trace of exactly length `n` with `trace[0] = trace[1] = 1` and
`trace[i] = trace[i-1] + trace[i-2]` for all `2 ≤ i < n`. -/
theorem gen_fib_trace_spec (n : Nat) :
    (n < 2 → gen_fib_trace n = [1, 1]) ∧
    (2 ≤ n →
      (gen_fib_trace n).length = n ∧
      (gen_fib_trace n).getD 0 0 = 1 ∧ (gen_fib_trace n).getD 1 0 = 1 ∧
      ∀ i, 2 ≤ i → i < n →
        (gen_fib_trace n).getD i 0 =
          (gen_fib_trace n).getD (i - 1) 0 + (gen_fib_trace n).getD (i - 2) 0) := by
  constructor
  · intro hn
    have hz : n - 2 = 0 := by omega
    rw [gen_fib_trace, hz]
    rfl
  · intro hn
    have hlen : (gen_fib_trace n).length = n := by
      rw [gen_fib_trace_length]; omega
    obtain ⟨h2, h0, h1, hrec⟩ := gen_fib_trace_fibChain n
    refine ⟨hlen, h0, h1, ?_⟩
    intro i hi2 hin
    have hr := hrec (i - 2) (by omega)
    have e1 : i - 2 + 1 = i - 1 := by omega
    have e2 : i - 2 + 2 = i := by omega
    rw [e1, e2] at hr
    omega

/-- C8 witness: `gen_fib_trace 1 = [1, 1]` and `gen_fib_trace 10` has
length 10, by the amended theorem at concrete inputs. -/
theorem gen_fib_trace_spec_witness :
    gen_fib_trace 1 = [1, 1] ∧ (gen_fib_trace 10).length = 10 :=
  ⟨(gen_fib_trace_spec 1).1 (by decide), ((gen_fib_trace_spec 10).2 (by decide)).1⟩

/-- C4: for every `n ≥ 2`, the genuine trace `gen_fib_trace n` together
with any list of challenge indices all lying in `[0, n-2)` yields a proof
(`prove` succeeds) that `verify` accepts. -/
theorem prove_then_verify (n : Nat) (idx : List Nat) (hn : 2 ≤ n)
    (hidx : ∀ i ∈ idx, i < n - 2) :
    ∃ p, prove (gen_fib_trace n) idx = some p ∧ verify p = true := by
  obtain ⟨h2, h0, h1, hrec⟩ := gen_fib_trace_fibChain n
  have hlen : (gen_fib_trace n).length = n := by
    rw [gen_fib_trace_length]; omega
  refine ⟨idx.map fun i =>
      (i, (gen_fib_trace n).getD i 0 + (gen_fib_trace n).getD (i + 1) 0,
        (gen_fib_trace n).getD (i + 2) 0), ?_, ?_⟩
  · exact mapM_option_eq_some_map _ _ _ fun i hi =>
      proofEntry_eq_some (by have := hidx i hi; omega)
  · rw [verify_eq_true_iff]
    intro t ht
    rw [List.mem_map] at ht
    obtain ⟨i, hi, rfl⟩ := ht
    exact hrec i (by have := hidx i hi; omega)

/-- C4 witness: proving the length-10 trace at challenges `[0, 3, 7]`
succeeds and verifies. -/
theorem prove_then_verify_witness :
    ∃ p, prove (gen_fib_trace 10) [0, 3, 7] = some p ∧ verify p = true :=
  prove_then_verify 10 [0, 3, 7] (by decide) (by decide)

/-- C5: `verify` returns true iff every triple satisfies `lhs = rhs`
(`verify_proof` is the same check), it returns false — a value, not an
error — otherwise, and corrupting any one `rhs` of a valid proof to
`rhs + 1` makes `verify` return false. -/
theorem verify_iff_and_corrupt (p : List (Nat × Int × Int)) :
    (verify p = true ↔ ∀ t ∈ p, t.2.1 = t.2.2) ∧
    verify_proof p = verify p ∧
    ∀ j, j < p.length → verify p = true →
      verify (p.set j ((p.getD j (0, 0, 0)).1, (p.getD j (0, 0, 0)).2.1,
        (p.getD j (0, 0, 0)).2.2 + 1)) = false := by
  refine ⟨verify_eq_true_iff p, verify_proof_eq_verify p, ?_⟩
  intro j hj hv
  have hmem : p.getD j (0, 0, 0) ∈ p := by
    rw [List.getD_eq_getElem p _ hj]
    exact List.getElem_mem _
  have heq := (verify_eq_true_iff p).mp hv _ hmem
  rw [verify_eq_all, List.all_eq_false]
  refine ⟨_, List.mem_set p j hj _, ?_⟩
  simp only [beq_iff_eq]
  intro hcon
  rw [heq] at hcon
  omega

/-- C5 witness: the one-triple valid proof `[(0, 2, 2)]` verifies, and
bumping its `rhs` to `3` makes `verify` return false. -/
theorem verify_iff_and_corrupt_witness :
    verify ([((0 : Nat), (2 : Int), (2 : Int))].set 0
      (([((0 : Nat), (2 : Int), (2 : Int))].getD 0 (0, 0, 0)).1,
       ([((0 : Nat), (2 : Int), (2 : Int))].getD 0 (0, 0, 0)).2.1,
       ([((0 : Nat), (2 : Int), (2 : Int))].getD 0 (0, 0, 0)).2.2 + 1)) = false :=
  (verify_iff_and_corrupt [((0 : Nat), (2 : Int), (2 : Int))]).2.2 0
    (by decide) (by decide)

theorem pyGet_nonneg (tr : List Int) (i : Int) (h0 : 0 ≤ i) :
    pyGet tr i = tr[i.toNat]? := by
  have hlt : ¬i < 0 := by omega
  simp only [pyGet, if_neg hlt, if_pos h0]

theorem proofEntryInt_eq_none_of_ge {tr : List Int} {i : Int} (h0 : 0 ≤ i)
    (h2 : (tr.length : Int) ≤ i + 2) : proofEntryInt tr i = none := by
  have hg : pyGet tr (i + 2) = none := by
    rw [pyGet_nonneg tr (i + 2) (by omega), List.getElem?_eq_none (by omega)]
  rw [proofEntryInt, hg]
  cases h : pyGet tr i <;> cases h' : pyGet tr (i + 1) <;> simp

theorem proofEntryInt_isSome_of_range {tr : List Int} {i : Int} (h0 : 0 ≤ i)
    (h2 : i + 2 < (tr.length : Int)) : (proofEntryInt tr i).isSome = true := by
  rw [proofEntryInt, pyGet_nonneg tr i h0, pyGet_nonneg tr (i + 1) (by omega),
    pyGet_nonneg tr (i + 2) (by omega),
    List.getElem?_eq_getElem (show i.toNat < tr.length by omega),
    List.getElem?_eq_getElem (show (i + 1).toNat < tr.length by omega),
    List.getElem?_eq_getElem (show (i + 2).toNat < tr.length by omega)]
  rfl

/-- C7 (counterexample): `prove` does not fail for every supplied index
outside `[0, n-2)`: on the concrete length-3 trace `[1, 1, 2]` the index
`-1` is outside `[0, 1)`, yet Python's negative-index aliasing reads
`trace[-1] = 2`, `trace[0] = 1`, `trace[1] = 1`, and `prove` succeeds
with the entry `(-1, 3, 1)` instead of raising `IndexError`. -/
theorem prove_negative_index_counterexample :
    proveInt [1, 1, 2] [-1] = some [(-1, 3, 1)] ∧
      ¬((0 : Int) ≤ -1 ∧ (-1 : Int) < 3 - 2) := by
  constructor
  · rfl
  · decide

/-- C7 (amended): `prove` fails with `IndexOutOfRange` whenever some
supplied nonnegative index lies outside `[0, n-2)`, and never fails when
every supplied index lies in `[0, n-2)`; a negative supplied index is not
covered by the failure law, because Python aliases it from the end of the
trace instead of raising. -/
theorem prove_python_index_spec (tr : List Int) (idx : List Int) :
    ((∃ i ∈ idx, 0 ≤ i ∧ (tr.length : Int) - 2 ≤ i) → proveInt tr idx = none) ∧
    ((∀ i ∈ idx, 0 ≤ i ∧ i < (tr.length : Int) - 2) →
      ∃ p, proveInt tr idx = some p) := by
  constructor
  · rintro ⟨i, hi, h0, hge⟩
    rw [proveInt, mapM_option_eq_none_iff]
    exact ⟨i, hi, proofEntryInt_eq_none_of_ge h0 (by omega)⟩
  · intro hall
    have hs : (idx.mapM (proofEntryInt tr)).isSome = true :=
      (mapM_option_isSome _ _).mpr fun i hi =>
        proofEntryInt_isSome_of_range (hall i hi).1
          (by have := (hall i hi).2; omega)
    obtain ⟨p, hp⟩ := Option.isSome_iff_exists.mp hs
    exact ⟨p, hp⟩

/-- C7 witness: on the trace `[1, 1, 2]`, the nonnegative out-of-range
index 5 makes `prove` fail and the in-range index 0 does not. -/
theorem prove_python_index_spec_witness :
    proveInt [1, 1, 2] [5] = none ∧ ∃ p, proveInt [1, 1, 2] [0] = some p :=
  ⟨(prove_python_index_spec [1, 1, 2] [5]).1 ⟨5, by decide, by decide, by decide⟩,
    (prove_python_index_spec [1, 1, 2] [0]).2 (by decide)⟩

/-- C9: for any RNG draw (a permutation `perm` of `range(n-2)`),
`random_challenges` succeeds exactly when `0 ≤ k ≤ n-2`, returning `k`
pairwise-distinct indices each in `[0, n-2)`; a negative `k` or `k > n-2`
makes it fail (Python raises `ValueError`, the spec's
`InsufficientRange`). -/
theorem random_challenges_spec (n : Nat) (k : Int) (perm : List Nat)
    (hperm : perm.Perm (List.range (n - 2))) :
    (0 ≤ k ∧ k ≤ ((n - 2 : Nat) : Int) →
      ∃ l, random_challenges perm k = some l ∧ l.length = k.toNat ∧
        l.Nodup ∧ ∀ i ∈ l, i < n - 2) ∧
    (k < 0 ∨ ((n - 2 : Nat) : Int) < k → random_challenges perm k = none) := by
  have hplen : perm.length = n - 2 := by
    rw [hperm.length_eq, List.length_range]
  constructor
  · rintro ⟨hk0, hkn⟩
    refine ⟨perm.take k.toNat, ?_, ?_, ?_, ?_⟩
    · rw [random_challenges, pyRandomSample, if_pos ⟨hk0, by omega⟩]
    · rw [List.length_take]
      omega
    · exact List.Nodup.sublist (List.take_sublist _ _)
        (hperm.nodup_iff.mpr (List.nodup_range _))
    · intro i hi
      have hip : i ∈ perm := (List.take_sublist _ _).subset hi
      exact List.mem_range.mp (hperm.mem_iff.mp hip)
  · intro hk
    rw [random_challenges, pyRandomSample, if_neg]
    rintro ⟨h1, h2⟩
    rcases hk with hk | hk <;> omega

/-- C9 witness: with `n = 10` and the identity draw of `range(8)`,
`k = 3` succeeds with 3 distinct in-range indices, and `k = 9` fails. -/
theorem random_challenges_spec_witness :
    (∃ l, random_challenges (List.range 8) 3 = some l ∧ l.length = (3 : Int).toNat ∧
      l.Nodup ∧ ∀ i ∈ l, i < 10 - 2) ∧
    random_challenges (List.range 8) 9 = none :=
  ⟨(random_challenges_spec 10 3 (List.range 8) (List.Perm.refl _)).1 (by decide),
    (random_challenges_spec 10 9 (List.range 8) (List.Perm.refl _)).2 (by decide)⟩

/-- C10: `verify` accepts the empty proof; the sampler admits `k = 0`
(returning the empty challenge set for any draw), and a round with zero
challenges accepts every trace: `prove` on no indices yields the empty
proof, which `verify` accepts, whatever the trace. -/
theorem zero_challenges_accept :
    verify [] = true ∧
    (∀ perm : List Nat, random_challenges perm 0 = some []) ∧
    (∀ tr : List Int, prove tr [] = some [] ∧ verify [] = true) := by
  refine ⟨rfl, ?_, ?_⟩
  · intro perm
    rw [random_challenges, pyRandomSample, if_pos ⟨by omega, by omega⟩]
    rfl
  · intro tr
    exact ⟨rfl, rfl⟩

/-- C2: on the `'pq'` path, `chainB_verify` ignores the signature
material entirely — any two `signer_blob` values give the same result
(two-run noninterference) — and its result is exactly the STARK check, so
it returns true whenever the proof verifies: no signature verification
happens on that path. -/
theorem chainB_verify_pq_noninterference {α β : Type}
    (legacy_vc : String → Int → Bool) (root : String)
    (proof : List (Nat × Int × Int)) (i1 : α) (p1 : β) (i2 : α) (p2 : β) :
    chainB_verify legacy_vc root proof (SignerBlob.pq i1 p1) =
      chainB_verify legacy_vc root proof (SignerBlob.pq i2 p2) ∧
    chainB_verify legacy_vc root proof (SignerBlob.pq i1 p1) =
      verify_proof proof := by
  unfold chainB_verify
  cases h : verify_proof proof <;> simp [h]

/-- C3: at a fold level with an odd number of nodes (at least 3), the
in-place duplication rule produces exactly the fold of the level with a
copy of its last node explicitly appended, and consequently the final
Merkle root is the same under either formulation. -/
theorem merkle_padding_law (h : String → String) (L : List String)
    (hodd : L.length % 2 = 1) (h3 : 3 ≤ L.length) :
    foldPairs h (padLevel L) = foldPairs h (L ++ [L.getLastD ""]) ∧
    merkle_root_from_leaves h L =
      merkle_root_from_leaves h (L ++ [L.getLastD ""]) := by
  refine ⟨foldPairs_padLevel_of_odd h hodd, ?_⟩
  rw [merkle_root_from_leaves, merkle_root_from_leaves, buildLoop_dup h hodd h3]

/-- C3 witness: the padding law at the concrete three-node level
`["a", "b", "c"]` with the identity digest function. -/
theorem merkle_padding_law_witness :
    foldPairs (fun s => s) (padLevel ["a", "b", "c"]) =
      foldPairs (fun s => s) (["a", "b", "c"] ++ [["a", "b", "c"].getLastD ""]) ∧
    merkle_root_from_leaves (fun s => s) ["a", "b", "c"] =
      merkle_root_from_leaves (fun s => s)
        (["a", "b", "c"] ++ [["a", "b", "c"].getLastD ""]) :=
  merkle_padding_law (fun s => s) ["a", "b", "c"] (by decide) (by decide)

theorem buildLoop_pair (h : String → String) (x y : String) :
    buildLoop h [x, y] = [h (x ++ y)] := by
  rw [buildLoop]
  simp [padLevel, foldPairs]
  rw [buildLoop]
  simp

/-- C6: the attack engine's tree rebuild refines the commitment builder:
for every trace, `build_merkle_from_leaves` on the trace's leaf digests
equals the root returned by `commit_trace` (same hash strength `h`), and
`recompute_root_with_new_leaf` with the original value at a valid index
reproduces the original committed root. -/
theorem attack_rebuild_refines_commit (h : String → String) (tr : List Int)
    (i : Nat) (hi : i < tr.length) :
    build_merkle_from_leaves h (tr.map (leafHash h)) =
      (commit_trace_vuln h tr).map Prod.fst ∧
    (recompute_root_with_new_leaf h tr i (tr.getD i 0)).1 =
      (commit_trace_vuln h tr).map Prod.fst := by
  have hbase : build_merkle_from_leaves h (tr.map (leafHash h)) =
      (commit_trace_vuln h tr).map Prod.fst := by
    simp only [build_merkle_from_leaves, commit_trace_vuln]
    cases hh : (buildLoop h (tr.map (leafHash h))).head? <;> simp [hh]
  have hmi : i < (tr.map (leafHash h)).length := by
    rw [List.length_map]; exact hi
  have hset : (tr.map (leafHash h)).set i (leafHash h (tr.getD i 0)) =
      tr.map (leafHash h) := by
    have hv : leafHash h (tr.getD i 0) =
        (tr.map (leafHash h)).getD i (leafHash h 0) := by
      rw [List.getD_eq_getElem tr 0 hi, List.getD_eq_getElem _ _ hmi,
        List.getElem_map]
    rw [hv, list_set_getD_self hmi]
  refine ⟨hbase, ?_⟩
  show build_merkle_from_leaves h
      ((tr.map (leafHash h)).set i (leafHash h (tr.getD i 0))) =
    (commit_trace_vuln h tr).map Prod.fst
  rw [hset]
  exact hbase

/-- C6 witness: at the concrete trace `[1, 1]`, index 0, identity digest
function, keeping the original value reproduces the committed root. -/
theorem attack_rebuild_refines_commit_witness :
    build_merkle_from_leaves (fun s => s) (([1, 1] : List Int).map (leafHash fun s => s)) =
      (commit_trace_vuln (fun s => s) [1, 1]).map Prod.fst ∧
    (recompute_root_with_new_leaf (fun s => s) [1, 1] 0
        (([1, 1] : List Int).getD 0 0)).1 =
      (commit_trace_vuln (fun s => s) [1, 1]).map Prod.fst :=
  attack_rebuild_refines_commit (fun s => s) [1, 1] 0 (by decide)

/-- C1 (counterexample): `vuln_stark.commit_trace` does not return the
per-element leaf digests as its second component: at the concrete trace
`[1, 1]` (with the identity digest function) the returned list has one
element, while the trace has two leaf digests. -/
theorem commit_vuln_leaves_counterexample :
    (commit_trace_vuln (fun s => s) [1, 1]).map (fun p => p.2.length) = some 1 ∧
    (([1, 1] : List Int).map (leafHash fun s => s)).length = 2 := by
  constructor
  · simp only [commit_trace_vuln, List.map]
    rw [buildLoop_pair]
    rfl
  · simp

/-- C1 (amended): the `pqzk_poc` `commit_trace` returns
`(root, leaves)` with `leaves` the per-element leaf digests of the trace,
for every nonempty trace; the `vuln_stark` `commit_trace` instead returns
as its second component the final fold level, which is the singleton
`[root]` (it coincides with the leaf digests only for one-element
traces). -/
theorem commit_qsafe_leaves (h : String → String) (t : List Int) (ht : t ≠ []) :
    (∃ r, commit_trace_qsafe h t = some (r, t.map (leafHash h))) ∧
    ∀ r l, commit_trace_vuln h t = some (r, l) → l = [r] := by
  constructor
  · have hne : t.map (leafHash h) ≠ [] := by
      intro hc
      exact ht (List.map_eq_nil_iff.mp hc)
    have hbn := buildLoop_ne_nil h (t.map (leafHash h)) hne
    cases hB : buildLoop h (t.map (leafHash h)) with
    | nil => exact absurd hB hbn
    | cons a rest =>
      refine ⟨a, ?_⟩
      simp only [commit_trace_qsafe, merkle_root_from_leaves, hB]
      rfl
  · intro r l hcv
    simp only [commit_trace_vuln] at hcv
    rw [Option.map_eq_some'] at hcv
    obtain ⟨a, ha, heq⟩ := hcv
    have h1 : a = r := congrArg Prod.fst heq
    have h2 : buildLoop h (t.map (leafHash h)) = l := congrArg Prod.snd heq
    exact list_eq_singleton_of_head?_length (by rw [← h2, ha, h1])
      (by rw [← h2]; exact buildLoop_length_le_one h _)

/-- C1 witness: the amended statement at the concrete trace `[1, 1]` with
the identity digest function. -/
theorem commit_qsafe_leaves_witness :
    (∃ r, commit_trace_qsafe (fun s => s) [1, 1] =
      some (r, ([1, 1] : List Int).map (leafHash fun s => s))) ∧
    ∀ r l, commit_trace_vuln (fun s => s) [1, 1] = some (r, l) → l = [r] :=
  commit_qsafe_leaves (fun s => s) [1, 1] (by decide)

end QuantumSafe
